import Mathlib

/-
Verification of the numerical-differentiation core in
src/numdifftools/nd_cstep.py.

Modelling conventions:
- numpy double-precision arrays are modelled over the rationals; every
  arithmetic identity proved here is an identity of exact (real) arithmetic.
- NaN error entries are modelled as the value none of Option.
- The transcendental kernel t to (10*EPS)^t (and log1p) cannot be written as
  a computable rational function; where only its structural role matters the
  development abstracts it as a function parameter, and where its order
  properties matter values of the form (10*EPS)^t are represented by the
  exponent t (the map is strictly decreasing since 0 < 10*EPS < 1, so the
  value order is the reverse of the exponent order).
-/

/-- EPS of nd_cstep.py: machine epsilon of IEEE double precision. -/
def EPS : ℚ := (2 : ℚ) ^ (-(52 : ℤ))

/-- nd_cstep._make_exact: returns (h + 1.0) - 1.0. -/
def make_exact (h : ℚ) : ℚ := (h + 1) - 1

/-- A numpy ndarray: a shape together with the flattened (C-order) data. -/
structure NDArr where
  shape : List ℕ
  data : List ℚ
deriving DecidableEq

/-- Elementwise multiplication of an array by a scalar (numpy broadcast). -/
def NDArr.smul (a : NDArr) (c : ℚ) : NDArr :=
  { shape := a.shape, data := a.data.map (fun q => q * c) }

/-- Elementwise map over an array. -/
def NDArr.emap (a : NDArr) (g : ℚ → ℚ) : NDArr :=
  { shape := a.shape, data := a.data.map g }

/-- The epsilon argument of nd_cstep._default_base_step: None, a python
scalar, or an ndarray. -/
inductive EpsArg where
  | none
  | scalar (c : ℚ)
  | array (a : NDArr)
deriving DecidableEq

/-- nd_cstep._default_base_step.  P abstracts the transcendental map
t to (10*EPS)^t and L abstracts log1p, both of which the rational model
cannot evaluate; the structure (branching, broadcasting, the shape check and
the shape of the returned array) is translated from the source.  The numpy
ValueError raised on a shape mismatch is modelled by the error case of
Except. -/
def default_base_step (P L : ℚ → ℚ) (x : NDArr) (scale : ℚ) (epsilon : EpsArg) :
    Except String NDArr :=
  match epsilon with
  | .none =>
      .ok { shape := x.shape,
            data := x.data.map (fun xi => P (1 / scale) * max (L |xi|) (1 / 10)) }
  | .scalar c =>
      .ok { shape := x.shape, data := x.data.map (fun _ => c) }
  | .array a =>
      if a.shape = x.shape then .ok a
      else .error "If h is not a scalar it must have the same shape as x."

/-- Whether an Except value is a success. -/
def exceptOk {α : Type} (e : Except String α) : Bool :=
  match e with
  | .ok _ => true
  | .error _ => false

/-- Minimum of a list of rationals (np.nanmin over a NaN-free column);
0 on the empty list. -/
def list_min : List ℚ → ℚ
  | [] => 0
  | [a] => a
  | a :: b :: t => min a (list_min (b :: t))

/-- Sliding triples of a list: the k-th entry pairs elements k, k+1, k+2
(the rows of res[0:-2], res[1:-1], res[2:] in nd_cstep._extrapolate). -/
def slide3 {α : Type} : List α → List (α × α × α)
  | a :: b :: c :: t => (a, b, c) :: slide3 (b :: c :: t)
  | _ => []

/-- Modelled from the spec: dea3 (imported by nd_cstep.py from the
numdifftools package, whose source is not under src/) applies one pass of a
three-term convergence-acceleration transform elementwise across the sliding
triples res[0:-2], res[1:-1], res[2:], returning a refined estimate row and
an error row per triple.  The per-element transform itself (the first
component is the refined value, the second the error estimate) is abstracted
as the function argument dea, since the spec states no formula for it; the
symmetric and the plain variants of the call are supplied as two separate
such arguments by the callers below. -/
def dea3pass {ι : Type} (dea : ℚ → ℚ → ℚ → ℚ × ℚ) (res : List (ι → ℚ)) :
    List (ι → ℚ) × List (ι → ℚ) :=
  ((slide3 res).map (fun t => fun e => (dea (t.1 e) (t.2.1 e) (t.2.2 e)).1),
   (slide3 res).map (fun t => fun e => (dea (t.1 e) (t.2.1 e) (t.2.2 e)).2))

/-- nd_cstep._Derivative._extrapolate, extrapolation stage: one symmetric
dea3 pass over the stacked raw estimates and, when more than two refined
rows remain, a second plain dea3 pass; returns (derivative rows, error
rows). -/
def extrap_rows {ι : Type} (deaS deaN : ℚ → ℚ → ℚ → ℚ × ℚ) (seq : List (ι → ℚ)) :
    List (ι → ℚ) × List (ι → ℚ) :=
  if 2 < (dea3pass deaS seq).1.length then dea3pass deaN (dea3pass deaS seq).1
  else dea3pass deaS seq

/-- The tied indices of nd_cstep._Derivative._get_arg_min: the row indices
of a column whose entry equals the column minimum
(np.flatnonzero(errors[:, i] == min_error)). -/
def tied_idx (col : List ℚ) : List ℕ :=
  (List.range col.length).filter (fun k => decide (col.getD k 0 = list_min col))

/-- nd_cstep._Derivative._get_arg_min on one column: the middle tied index
idx[idx.size // 2]. -/
def get_arg_min (col : List ℚ) : ℕ :=
  (tied_idx col).getD ((tied_idx col).length / 2) 0

/-- The median of a sorted list of tied indices, as a rational. -/
def tied_median (t : List ℕ) : ℚ :=
  (((t.getD ((t.length - 1) / 2) 0 : ℕ) : ℚ) + ((t.getD (t.length / 2) 0 : ℕ) : ℚ)) / 2

/-- The row selected for one flattened output element: _get_arg_min applied
to that element's error column. -/
def extrap_sel {ι : Type} (deaS deaN : ℚ → ℚ → ℚ → ℚ × ℚ) (seq : List (ι → ℚ))
    (e : ι) : ℕ :=
  get_arg_min ((extrap_rows deaS deaN seq).2.map (fun r => r e))

/-- The result triple of nd_cstep._Derivative._extrapolate.  estimate and
error have the output's shape (index type ι); error entries are none where
the code stores NaN; index records, per element, the selected extrapolation
stage row (the code stores the position of that row element in the stacked
2-D array — the raveled pair of the stage row and the element — which our
shape-generic ι-indexed model splits into the stage row per element). -/
structure ExtrapResult (ι : Type) where
  estimate : ι → ℚ
  error : ι → Option ℚ
  index : ι → ℕ

/-- nd_cstep._Derivative._extrapolate.  With fewer than 3 raw estimates it
returns the unweighted average of the first and the last estimate with NaN
errors and index 0; otherwise it runs the dea3 passes and selects, per
element, the row chosen by _get_arg_min.  The ravel/reshape steps of the
source are the identity in this shape-generic model. -/
def extrapolate {ι : Type} (deaS deaN : ℚ → ℚ → ℚ → ℚ × ℚ) (seq : List (ι → ℚ)) :
    ExtrapResult ι :=
  if seq.length < 3 then
    { estimate := fun e => (seq.headD (fun _ => 0) e + seq.getLastD (fun _ => 0) e) / 2,
      error := fun _ => none,
      index := fun _ => 0 }
  else
    { estimate := fun e =>
        ((extrap_rows deaS deaN seq).1.map (fun r => r e)).getD (extrap_sel deaS deaN seq e) 0,
      error := fun e =>
        some (((extrap_rows deaS deaN seq).2.map (fun r => r e)).getD (extrap_sel deaS deaN seq e) 0),
      index := fun e => extrap_sel deaS deaN seq e }

/-- The final assignment pattern of the Hessian stencil loops: the upper
triangle (j from i to n-1) is computed and hess[j,i] = hess[i,j] mirrors it
to the lower triangle. -/
def mirrorUT {n : ℕ} (U : Fin n → Fin n → ℚ) : Fin n → Fin n → ℚ :=
  fun i j => if i ≤ j then U i j else U j i

/-- Row i of np.diag(h): h[i] at coordinate i, zero elsewhere. -/
def ee_row {n : ℕ} (h : Fin n → ℚ) (i : Fin n) : Fin n → ℚ :=
  fun k => if i = k then h k else 0

/-- A complex scalar over the rational model (for the complex-step method). -/
structure CQ where
  re : ℚ
  im : ℚ
deriving DecidableEq

instance : Sub CQ :=
  ⟨fun a b => { re := a.re - b.re, im := a.im - b.im }⟩

/-- nd_cstep.Hessian._central (Eq. 9) at one step h; the divisor hess[j,i]
read by the source is the not-yet-overwritten np.outer(h, h)[j, i]. -/
def Hessian_central {n : ℕ} (f : (Fin n → ℚ) → ℚ) (x h : Fin n → ℚ) :
    Fin n → Fin n → ℚ :=
  mirrorUT (fun i j =>
    (f (fun k => x k + ee_row h i k + ee_row h j k)
     - f (fun k => x k + ee_row h i k - ee_row h j k)
     - f (fun k => x k - ee_row h i k + ee_row h j k)
     + f (fun k => x k - ee_row h i k - ee_row h j k)) / (4 * (h j * h i)))

/-- nd_cstep.Hessian._central2 (Eq. 8) at one step h, with the cached
g[i] = f(x + ee[i]), gg[i] = f(x - ee[i]) and f0 = f(x) inlined. -/
def Hessian_central2 {n : ℕ} (f : (Fin n → ℚ) → ℚ) (x h : Fin n → ℚ) :
    Fin n → Fin n → ℚ :=
  mirrorUT (fun i j =>
    (f (fun k => x k + ee_row h i k + ee_row h j k)
     - f (fun k => x k + ee_row h i k) - f (fun k => x k + ee_row h j k) + f x
     + f (fun k => x k - ee_row h i k - ee_row h j k)
     - f (fun k => x k - ee_row h i k) - f (fun k => x k - ee_row h j k) + f x)
    / (2 * (h j * h i)))

/-- nd_cstep.Hessian._forward (Eq. 7) at one step h, with the cached
g[i] = f(x + ee[i]) and f0 = f(x) inlined. -/
def Hessian_forward {n : ℕ} (f : (Fin n → ℚ) → ℚ) (x h : Fin n → ℚ) :
    Fin n → Fin n → ℚ :=
  mirrorUT (fun i j =>
    (f (fun k => x k + ee_row h i k + ee_row h j k)
     - f (fun k => x k + ee_row h i k) - f (fun k => x k + ee_row h j k) + f x)
    / (h j * h i))

/-- nd_cstep.Hessian._backward: _forward with the negated step. -/
def Hessian_backward {n : ℕ} (f : (Fin n → ℚ) → ℚ) (x h : Fin n → ℚ) :
    Fin n → Fin n → ℚ :=
  Hessian_forward f x (fun k => -h k)

/-- nd_cstep.Hessian._complex (Eq. 10) at one step h: f is evaluated at the
complex points x + 1j*ee[i] ± ee[j] and the imaginary part of the difference
is divided by (2*np.outer(h,h))[j,i]. -/
def Hessian_complex {n : ℕ} (f : (Fin n → CQ) → CQ) (x h : Fin n → ℚ) :
    Fin n → Fin n → ℚ :=
  mirrorUT (fun i j =>
    (f (fun k => { re := x k + ee_row h j k, im := ee_row h i k })
     - f (fun k => { re := x k - ee_row h j k, im := ee_row h i k })).im
    / (2 * (h j * h i)))

/-- The raw-estimate list of _Derivative.__call__: one stencil evaluation
per step of the step sequence. -/
def derivative_results {H ι : Type} (stencil : H → ι → ℚ) (steps : List H) :
    List (ι → ℚ) :=
  steps.map stencil

/-- _Derivative.__call__ composed with _extrapolate, with the method
dispatch abstracted as the stencil argument and the step sequence as the
materialized list the generator produced. -/
def derivative_call {H ι : Type} (deaS deaN : ℚ → ℚ → ℚ → ℚ × ℚ)
    (stencil : H → ι → ℚ) (steps : List H) : ExtrapResult ι :=
  extrapolate deaS deaN (derivative_results stencil steps)

/-- The increment matrix np.identity(n) * h of the Gradient stencils: row i
is h[i] at coordinate i, zero elsewhere. -/
def increments {n : ℕ} (h : Fin n → ℚ) : Fin n → Fin n → ℚ :=
  fun i k => (if i = k then (1 : ℚ) else 0) * h k

/-- The per-axis partials of nd_cstep.Gradient._forward before the
transpose: entry [i][o] is ((f(x + increments[i]) - f(x)) / epsilon[i])[o]. -/
def grad_parts_fwd {n m : ℕ} (f : (Fin n → ℚ) → Fin m → ℚ) (x h : Fin n → ℚ) :
    Fin n → Fin m → ℚ :=
  fun i o => (f (fun k => x k + increments h i k) o - f x o) / h i

/-- nd_cstep.Gradient._forward: np.array(partials).T. The transpose reverses
the axes, so the result is indexed [output dimension][input coordinate]. -/
def Gradient_forward {n m : ℕ} (f : (Fin n → ℚ) → Fin m → ℚ) (x h : Fin n → ℚ) :
    Fin m → Fin n → ℚ :=
  fun o i => grad_parts_fwd f x h i o

/-- The per-axis partials of nd_cstep.Gradient._central before the
transpose: entry [i][o] is ((f(x + hi) - f(x - hi)) / h2[i])[o] with
h2 = h * 2. -/
def grad_parts_central {n m : ℕ} (f : (Fin n → ℚ) → Fin m → ℚ) (x h : Fin n → ℚ) :
    Fin n → Fin m → ℚ :=
  fun i o =>
    (f (fun k => x k + increments h i k) o - f (fun k => x k - increments h i k) o)
      / (h i * 2)

/-- nd_cstep.Gradient._central: np.array(partials).T. -/
def Gradient_central {n m : ℕ} (f : (Fin n → ℚ) → Fin m → ℚ) (x h : Fin n → ℚ) :
    Fin m → Fin n → ℚ :=
  fun o i => grad_parts_central f x h i o

/-- Gradient._forward partials for a matrix-valued target function (one
value per observation): entry [i][u][v]. -/
def grad_parts_fwd_mat {n a b : ℕ} (f : (Fin n → ℚ) → Fin a → Fin b → ℚ)
    (x h : Fin n → ℚ) : Fin n → Fin a → Fin b → ℚ :=
  fun i u v => (f (fun k => x k + increments h i k) u v - f x u v) / h i

/-- nd_cstep.Gradient._forward on a matrix-valued f: np.array(partials).T on
the rank-3 partials array reverses all three axes. -/
def Gradient_forward_mat {n a b : ℕ} (f : (Fin n → ℚ) → Fin a → Fin b → ℚ)
    (x h : Fin n → ℚ) : Fin b → Fin a → Fin n → ℚ :=
  fun v u i => grad_parts_fwd_mat f x h i u v

/-- Definition following the words of the claim, not the code: the result
oriented so that the earlier axes index input coordinates and the last axis
indexes the output dimension (i.e. the untransposed partials array). -/
def Gradient_forward_claim {n m : ℕ} (f : (Fin n → ℚ) → Fin m → ℚ) (x h : Fin n → ℚ) :
    Fin n → Fin m → ℚ :=
  fun i o => grad_parts_fwd f x h i o

/-- The candidate steps of StepsGenerator.__call__, for i = num_steps down
to 0: h_i = delta * step_ratio ** (i + offset) (the ratio parameter is
named rr here). -/
def gen1_candidates (delta : NDArr) (num : ℕ) (rr : ℚ) (off : ℤ) : List NDArr :=
  ((List.range (num + 1)).reverse).map (fun i => delta.smul (rr ^ (Int.ofNat i + off)))

/-- The yield filter both generators apply to each candidate: the step is
yielded only when (np.abs(h) > 0).all(), i.e. every element is nonzero. -/
def yield_nonzero (cands : List NDArr) : List NDArr :=
  cands.filter (fun h => h.data.all (fun q => decide (q ≠ 0)))

/-- StepsGenerator.__call__ given the resolved base step delta. -/
def gen1_steps (delta : NDArr) (num : ℕ) (rr : ℚ) (off : ℤ) : List NDArr :=
  yield_nonzero (gen1_candidates delta num rr off)

/-- StepsGenerator.__call__ end to end: resolve delta through the Base-Step
Policy with self.base_step as the override, exact-normalize it when
use_exact_steps is set, then yield the geometric candidates through the
nonzero filter. -/
def StepsGenerator_call (P L : ℚ → ℚ) (base_step : EpsArg) (use_exact : Bool)
    (num : ℕ) (rr : ℚ) (off : ℤ) (x : NDArr) (scale : ℚ) :
    Except String (List NDArr) :=
  (default_base_step P L x scale base_step).map (fun d =>
    gen1_steps (if use_exact then d.emap make_exact else d) num rr off)

/-- Candidate steps of StepsGenerator2.__call__ from the resolved delta and
the multiplier list: h = _make_exact(delta * step). -/
def gen2_candidates (delta : NDArr) (mults : List ℚ) : List NDArr :=
  mults.map (fun m => (delta.smul m).emap make_exact)

/-- StepsGenerator2.__call__ given the resolved delta and multipliers. -/
def gen2_steps (delta : NDArr) (mults : List ℚ) : List NDArr :=
  yield_nonzero (gen2_candidates delta mults)

/-- A generated step would be exactly zero in some coordinate. -/
def degenerate (h : NDArr) : Prop := ∃ q ∈ h.data, q = 0

/-- The default step_min of StepsGenerator2, (10*EPS)^(1/scale), in the
exponent representation: the value is represented by its exponent as a power
of 10*EPS.  Since 0 < 10*EPS < 1, the map from exponent to value is strictly
decreasing, so value comparisons are exponent comparisons reversed. -/
def step_min_exp (scale : ℚ) : ℚ := 1 / scale

/-- The default step_max of StepsGenerator2, (10*EPS)^(1/(scale+1.5)), in
the exponent representation. -/
def step_max_exp (scale : ℚ) : ℚ := 1 / (scale + 3 / 2)

/-- The multipliers np.logspace(0, -log10(step_min) + log10(step_max),
num_steps)[::-1] of StepsGenerator2.__call__ with the default bounds, in the
exponent representation: logspace(0, E, num)[k] = 10^(k*E/(num-1)), and with
log10(step_min) = step_min_exp*log10(10*EPS), log10(step_max) =
step_max_exp*log10(10*EPS), the k-th multiplier is the power of 10*EPS with
exponent (k/(num-1))*(step_max_exp - step_min_exp); the [::-1] reversal puts
the largest multiplier (the most negative exponent) first.  For num = 1,
numpy's linspace yields [0.0], matched here by ℚ's 0-denominator
convention. -/
def logspace_mult_exp (scale : ℚ) (num : ℕ) : List ℚ :=
  ((List.range num).map
    (fun k : ℕ => ((k : ℚ) / ((num : ℚ) - 1)) * (step_max_exp scale - step_min_exp scale))).reverse

/-- One Gauss-Jordan row operation: subtract c times row r2 from row r1. -/
def rowSub (r1 r2 : List ℚ) (c : ℚ) : List ℚ :=
  List.zipWith (fun a b => a - c * b) r1 r2

/-- Swap the first row at or below position k with a nonzero entry in column
col into position k. -/
def pivotSwap (rows : List (List ℚ)) (k col : ℕ) : List (List ℚ) :=
  match (List.range rows.length).filter
      (fun r => decide (k ≤ r) && !decide ((rows.getD r []).getD col 0 = 0)) with
  | [] => rows
  | r :: _ =>
      rows.mapIdx (fun i row =>
        if i = k then rows.getD r [] else if i = r then rows.getD k [] else row)

/-- One Gauss-Jordan elimination step on column col with pivot row k. -/
def elimCol (rows : List (List ℚ)) (k col : ℕ) : List (List ℚ) :=
  let rows2 := pivotSwap rows k col
  let pivRow := rows2.getD k []
  let p := pivRow.getD col 0
  if p = 0 then rows2
  else
    let pr := pivRow.map (fun q => q / p)
    rows2.mapIdx (fun i row => if i = k then pr else rowSub row pr (row.getD col 0))

/-- Gauss-Jordan reduction of an m-row augmented system. -/
def gaussJordan (m : ℕ) (rows : List (List ℚ)) : List (List ℚ) :=
  (List.range m).foldl (fun rs k => elimCol rs k k) rows

/-- Row r of the inverse of the m x m matrix X (scipy.linalg.inv realized by
Gauss-Jordan elimination on the augmented system [X | I]). -/
def matInvRow (m : ℕ) (X : List (List ℚ)) (r : ℕ) : List ℚ :=
  ((gaussJordan m ((List.range m).map (fun i =>
      (X.getD i []) ++ (List.range m).map (fun j => if i = j then (1 : ℚ) else 0)))).getD r []).drop m

/-- The Vandermonde-style matrix X of NDerivative.central_diff_weights: row
i holds the powers x^0 .. x^(Np-1) of the stencil node x = i - (Np >> 1). -/
def vanderX (Np : ℕ) : List (List ℚ) :=
  (List.range Np).map (fun i =>
    (List.range Np).map (fun k => ((Int.ofNat i - Int.ofNat (Np / 2) : ℤ) : ℚ) ^ k))

/-- NDerivative.central_diff_weights: the two guard checks, then
np.product(np.arange(1, ndiv+1)) = ndiv! times row ndiv of inv(X). -/
def central_diff_weights (Np ndiv : ℕ) : Except String (List ℚ) :=
  if Np < ndiv + 1 then
    .error "Number of points must be at least the derivative order + 1."
  else if Np % 2 = 0 then
    .error "The number of points must be odd."
  else
    .ok ((matInvRow Np (vanderX Np) ndiv).map (fun q => (Nat.factorial ndiv : ℚ) * q))

/-- NDerivative._weights: guard checks first, then the precomputed weight
vectors for n = 1, 2 at order 3, 5, 7, 9, falling back to
central_diff_weights elsewhere. -/
def NDerivative_weights (n order : ℕ) : Except String (List ℚ) :=
  if order < n + 1 then
    .error "order must be at least the derivative order n + 1."
  else if order % 2 = 0 then
    .error "order must be odd."
  else if n = 1 then
    if order = 3 then .ok [-1 / 2, 0, 1 / 2]
    else if order = 5 then .ok [1 / 12, -8 / 12, 0, 8 / 12, -1 / 12]
    else if order = 7 then
      .ok [-1 / 60, 9 / 60, -45 / 60, 0, 45 / 60, -9 / 60, 1 / 60]
    else if order = 9 then
      .ok [3 / 840, -32 / 840, 168 / 840, -672 / 840, 0,
           672 / 840, -168 / 840, 32 / 840, -3 / 840]
    else central_diff_weights order 1
  else if n = 2 then
    if order = 3 then .ok [1, -2, 1]
    else if order = 5 then .ok [-1 / 12, 16 / 12, -30 / 12, 16 / 12, -1 / 12]
    else if order = 7 then
      .ok [2 / 180, -27 / 180, 270 / 180, -490 / 180, 270 / 180, -27 / 180, 2 / 180]
    else if order = 9 then
      .ok [-9 / 5040, 128 / 5040, -1008 / 5040, 8064 / 5040, -14350 / 5040,
           8064 / 5040, -1008 / 5040, 128 / 5040, -9 / 5040]
    else central_diff_weights order 2
  else central_diff_weights order n

/-- The state NDerivative.__init__ builds: the target function is only
stored (its type α is arbitrary, so __init__ cannot evaluate it), and the
stencil weights are computed during construction. -/
structure NDerivativeState (α : Type) where
  f : α
  n : ℕ
  order : ℕ
  weights : List ℚ

/-- NDerivative.__init__: stores f and runs _weights; it fails exactly when
_weights does, before any evaluation of f. -/
def NDerivative_init {α : Type} (f : α) (n order : ℕ) :
    Except String (NDerivativeState α) :=
  (NDerivative_weights n order).map
    (fun w => { f := f, n := n, order := order, weights := w })

/-- _Derivative._make_callable on a non-callable steps configuration (None,
scalar or array): the wrapper generator yields exactly one step, the
Base-Step-Policy resolution of that configuration. -/
def make_callable_value (P L : ℚ → ℚ) (steps : EpsArg) (x : NDArr) (scale : ℚ) :
    Except String (List NDArr) :=
  (default_base_step P L x scale steps).map (fun h => [h])

/-- _Derivative.__call__ with a non-callable steps configuration: one raw
stencil estimate per yielded step (here exactly one), then _extrapolate. -/
def derivative_call_value {ι : Type} (P L : ℚ → ℚ) (deaS deaN : ℚ → ℚ → ℚ → ℚ × ℚ)
    (stencil : NDArr → ι → ℚ) (steps : EpsArg) (x : NDArr) (scale : ℚ) :
    Except String (ExtrapResult ι) :=
  (make_callable_value P L steps x scale).map (fun hs =>
    extrapolate deaS deaN (derivative_results stencil hs))

/-- In exact arithmetic _make_exact is the identity. -/
theorem make_exact_id (h : ℚ) : make_exact h = h := by
  simp [make_exact]

/-- List.getD agrees with List.get inside the bounds. -/
theorem getD_eq_get {α : Type} (l : List α) (d : α) (k : ℕ) (h : k < l.length) :
    l.getD k d = l.get ⟨k, h⟩ := by
  induction l generalizing k with
  | nil => cases h
  | cons a t ih =>
      cases k with
      | zero => rfl
      | succ m => exact ih m (Nat.lt_of_succ_lt_succ h)

/-- An in-bounds getD is a member of the list. -/
theorem getD_mem {α : Type} (l : List α) (d : α) (k : ℕ) (h : k < l.length) :
    l.getD k d ∈ l := by
  rw [getD_eq_get l d k h]
  exact List.get_mem l k h

/-- headD of a nonempty list is a member. -/
theorem headD_mem {α : Type} (l : List α) (d : α) (h : l ≠ []) :
    l.headD d ∈ l := by
  cases l with
  | nil => exact absurd rfl h
  | cons a t => exact List.mem_cons_self a t

/-- getLastD of a nonempty list is a member. -/
theorem getLastD_mem {α : Type} (l : List α) (d : α) (h : l ≠ []) :
    l.getLastD d ∈ l := by
  induction l generalizing d with
  | nil => exact absurd rfl h
  | cons a t ih =>
      cases t with
      | nil => exact List.mem_cons_self a []
      | cons b u =>
          have := ih (d := a) (by simp)
          simp only [List.getLastD] at this ⊢
          exact List.mem_cons_of_mem a this

/-- list_min is a lower bound for every member. -/
theorem list_min_le (l : List ℚ) (y : ℚ) (hy : y ∈ l) : list_min l ≤ y := by
  induction l with
  | nil => cases hy
  | cons a t ih =>
      cases t with
      | nil =>
          rcases List.mem_singleton.mp hy with rfl
          exact le_refl _
      | cons b u =>
          rcases List.mem_cons.mp hy with rfl | hmem
          · exact min_le_left _ _
          · exact le_trans (min_le_right _ _) (ih hmem)

/-- list_min of a nonempty list is attained. -/
theorem list_min_mem (l : List ℚ) (h : l ≠ []) : list_min l ∈ l := by
  induction l with
  | nil => exact absurd rfl h
  | cons a t ih =>
      cases t with
      | nil => simp [list_min]
      | cons b u =>
          rcases le_total a (list_min (b :: u)) with hle | hle
          · simp [list_min, min_eq_left hle]
          · have := ih (by simp)
            simp only [list_min, min_eq_right hle]
            exact List.mem_cons_of_mem a this

/-- slide3 produces length - 2 triples. -/
theorem slide3_length {α : Type} (l : List α) : (slide3 l).length = l.length - 2 := by
  match l with
  | [] => rfl
  | [_] => rfl
  | [_, _] => rfl
  | a :: b :: c :: t =>
      have := slide3_length (b :: c :: t)
      simp only [slide3, List.length_cons] at this ⊢
      omega

/-- Every component of a sliding triple is a member of the list. -/
theorem slide3_mem {α : Type} (l : List α) (t : α × α × α) (ht : t ∈ slide3 l) :
    t.1 ∈ l ∧ t.2.1 ∈ l ∧ t.2.2 ∈ l := by
  match l with
  | [] => cases ht
  | [_] => cases ht
  | [_, _] => cases ht
  | a :: b :: c :: u =>
      simp only [slide3, List.mem_cons] at ht
      rcases ht with rfl | ht
      · refine ⟨List.mem_cons_self _ _, ?_, ?_⟩
        · exact List.mem_cons_of_mem _ (List.mem_cons_self _ _)
        · exact List.mem_cons_of_mem _ (List.mem_cons_of_mem _ (List.mem_cons_self _ _))
      · have := slide3_mem (b :: c :: u) t ht
        exact ⟨List.mem_cons_of_mem _ this.1, List.mem_cons_of_mem _ this.2.1,
               List.mem_cons_of_mem _ this.2.2⟩

/-- Membership in the tied-index list. -/
theorem tied_idx_mem_iff (col : List ℚ) (k : ℕ) :
    k ∈ tied_idx col ↔ k < col.length ∧ col.getD k 0 = list_min col := by
  simp [tied_idx, List.mem_filter, List.mem_range]

/-- The tied-index list of a nonempty column is nonempty. -/
theorem tied_idx_ne_nil (col : List ℚ) (h : col ≠ []) : tied_idx col ≠ [] := by
  have hmem : list_min col ∈ col := list_min_mem col h
  rcases List.mem_iff_get.mp hmem with ⟨i, hi⟩
  have : (i : ℕ) ∈ tied_idx col := by
    rw [tied_idx_mem_iff]
    exact ⟨i.isLt, by rw [getD_eq_get col 0 i i.isLt]; exact hi⟩
  exact List.ne_nil_of_mem this

/-- The tied-index list is strictly sorted. -/
theorem tied_idx_sorted (col : List ℚ) : (tied_idx col).Pairwise (· < ·) :=
  (List.pairwise_lt_range col.length).filter _

/-- In a strictly sorted list of naturals, positions are monotone in value. -/
theorem sorted_getD_mono (t : List ℕ) (hs : t.Pairwise (· < ·)) (p q : ℕ)
    (hpq : p ≤ q) (hq : q < t.length) : t.getD p 0 ≤ t.getD q 0 := by
  have hp : p < t.length := lt_of_le_of_lt hpq hq
  rw [getD_eq_get t 0 p hp, getD_eq_get t 0 q hq]
  rcases lt_or_eq_of_le hpq with hlt | heq
  · exact le_of_lt (List.pairwise_iff_get.mp hs ⟨p, hp⟩ ⟨q, hq⟩ hlt)
  · subst heq; exact le_refl _

/-- The selected index is a tied index. -/
theorem get_arg_min_mem (col : List ℚ) (h : col ≠ []) :
    get_arg_min col ∈ tied_idx col := by
  have hne : tied_idx col ≠ [] := tied_idx_ne_nil col h
  have hlen : 0 < (tied_idx col).length := List.length_pos.mpr hne
  exact getD_mem _ 0 _ (Nat.div_lt_self hlen (by omega))

/-- nd_cstep._get_arg_min picks a row whose error is the column minimum. -/
theorem get_arg_min_is_min (col : List ℚ) (h : col ≠ []) :
    get_arg_min col < col.length ∧ col.getD (get_arg_min col) 0 = list_min col :=
  (tied_idx_mem_iff col _).mp (get_arg_min_mem col h)

/-- Among all tied indices, the index selected by _get_arg_min minimizes the
distance to the median of the tied indices. -/
theorem get_arg_min_median (col : List ℚ) (h : col ≠ []) :
    ∀ j ∈ tied_idx col,
      |((get_arg_min col : ℕ) : ℚ) - tied_median (tied_idx col)| ≤
      |((j : ℕ) : ℚ) - tied_median (tied_idx col)| := by
  intro j hj
  set t := tied_idx col with ht
  have hs : t.Pairwise (· < ·) := tied_idx_sorted col
  have hne : t ≠ [] := tied_idx_ne_nil col h
  have hlen : 0 < t.length := List.length_pos.mpr hne
  set pa := (t.length - 1) / 2 with hpa
  set pb := t.length / 2 with hpb
  have hbq : pb < t.length := Nat.div_lt_self hlen (by omega)
  have hab : pa ≤ pb := by omega
  set a := t.getD pa 0 with ha
  set b := t.getD pb 0 with hb
  have haleb : a ≤ b := sorted_getD_mono t hs pa pb hab hbq
  have hmed : tied_median t = (((a : ℕ) : ℚ) + ((b : ℕ) : ℚ)) / 2 := rfl
  have hsel : get_arg_min col = b := rfl
  rcases List.mem_iff_get.mp hj with ⟨p, hp⟩
  have hcases : (p : ℕ) ≤ pa ∨ pb ≤ (p : ℕ) := by omega
  have habQ : ((a : ℕ) : ℚ) ≤ ((b : ℕ) : ℚ) := by exact_mod_cast haleb
  rcases hcases with hple | hpge
  · have hja : j ≤ a := by
      have := sorted_getD_mono t hs p pa hple (by omega)
      rw [getD_eq_get t 0 p p.isLt] at this
      rw [← hp]; exact this
    have hjaQ : ((j : ℕ) : ℚ) ≤ ((a : ℕ) : ℚ) := by exact_mod_cast hja
    rw [hsel, hmed]
    rw [abs_of_nonneg (by linarith), abs_of_nonpos (by linarith)]
    linarith
  · have hjb : b ≤ j := by
      have := sorted_getD_mono t hs pb p hpge p.isLt
      rw [getD_eq_get t 0 p p.isLt] at this
      rw [← hp]; exact this
    have hjbQ : ((b : ℕ) : ℚ) ≤ ((j : ℕ) : ℚ) := by exact_mod_cast hjb
    rw [hsel, hmed]
    rw [abs_of_nonneg (by linarith), abs_of_nonneg (by linarith)]
    linarith

/-- getLastD of a nonempty list is its getLast. -/
theorem getLastD_eq_getLast {α : Type} (l : List α) (d : α) (h : l ≠ []) :
    l.getLastD d = l.getLast h := by
  cases l with
  | nil => exact absurd rfl h
  | cons a t => simp only [List.getLastD, List.getLast]

/-- Row counts of the extrapolation stage: derivative rows and error rows
agree, and with at least 3 raw estimates at least one row remains. -/
theorem extrap_rows_length {ι : Type} (deaS deaN : ℚ → ℚ → ℚ → ℚ × ℚ)
    (seq : List (ι → ℚ)) :
    (extrap_rows deaS deaN seq).1.length = (extrap_rows deaS deaN seq).2.length ∧
    (3 ≤ seq.length → 0 < (extrap_rows deaS deaN seq).2.length) := by
  by_cases hgt : 2 < (dea3pass deaS seq).1.length
  · unfold extrap_rows
    rw [if_pos hgt]
    refine ⟨by simp [dea3pass], ?_⟩
    intro h3
    simp only [dea3pass, List.length_map, slide3_length] at hgt ⊢
    omega
  · unfold extrap_rows
    rw [if_neg hgt]
    refine ⟨by simp [dea3pass], ?_⟩
    intro h3
    simp only [dea3pass, List.length_map, slide3_length] at hgt ⊢
    omega

/-- C1: fed at least 3 raw estimates, the extrapolation engine returns, for
each flattened output element, the estimate and the error of the
extrapolation-stage row whose error is minimal for that element, and the
selected row index minimizes the distance to the median of all tied
(minimal-error) row indices — not merely the first minimal index. -/
theorem C1_min_error_median_selection {ι : Type} (deaS deaN : ℚ → ℚ → ℚ → ℚ × ℚ)
    (seq : List (ι → ℚ)) (h3 : 3 ≤ seq.length) (e : ι) (errCol derCol : List ℚ)
    (hec : errCol = (extrap_rows deaS deaN seq).2.map (fun w => w e))
    (hdc : derCol = (extrap_rows deaS deaN seq).1.map (fun w => w e)) :
    (extrapolate deaS deaN seq).index e < errCol.length ∧
    (extrapolate deaS deaN seq).estimate e = derCol.getD ((extrapolate deaS deaN seq).index e) 0 ∧
    (extrapolate deaS deaN seq).error e = some (errCol.getD ((extrapolate deaS deaN seq).index e) 0) ∧
    errCol.getD ((extrapolate deaS deaN seq).index e) 0 = list_min errCol ∧
    (∀ y ∈ errCol, list_min errCol ≤ y) ∧
    (∀ j ∈ tied_idx errCol,
      |(((extrapolate deaS deaN seq).index e : ℕ) : ℚ) - tied_median (tied_idx errCol)| ≤
      |((j : ℕ) : ℚ) - tied_median (tied_idx errCol)|) := by
  have hnotlt : ¬seq.length < 3 := by omega
  have hcolne : errCol ≠ [] := by
    have hpos : 0 < (extrap_rows deaS deaN seq).2.length :=
      (extrap_rows_length deaS deaN seq).2 h3
    rw [hec]
    intro hnil
    rw [← List.length_eq_zero] at hnil
    simp only [List.length_map] at hnil
    omega
  have hidx : (extrapolate deaS deaN seq).index e = get_arg_min errCol := by
    simp only [extrapolate, if_neg hnotlt, extrap_sel, hec]
  have hmin := get_arg_min_is_min errCol hcolne
  refine ⟨?_, ?_, ?_, ?_, ?_, ?_⟩
  · rw [hidx]; exact hmin.1
  · simp only [extrapolate, if_neg hnotlt, hidx, hdc, extrap_sel, hec]
  · simp only [extrapolate, if_neg hnotlt, hidx, hec, extrap_sel]
  · rw [hidx]; exact hmin.2
  · exact fun y hy => list_min_le errCol y hy
  · rw [hidx]; exact get_arg_min_median errCol hcolne

/-- Witness for C1 at a concrete three-estimate input. -/
theorem C1_min_error_median_selection_witness :
    3 ≤ ([fun _ => (0 : ℚ), fun _ => 0, fun _ => 4] : List (Unit → ℚ)).length ∧
    (extrapolate (fun a b c => (a + b, c - b)) (fun a b c => (a, b + c))
        ([fun _ => (0 : ℚ), fun _ => 0, fun _ => 4] : List (Unit → ℚ))).index () <
      ([(4 : ℚ)]).length ∧
    (extrapolate (fun a b c => (a + b, c - b)) (fun a b c => (a, b + c))
        ([fun _ => (0 : ℚ), fun _ => 0, fun _ => 4] : List (Unit → ℚ))).estimate ()
      = ([(0 : ℚ)]).getD
          ((extrapolate (fun a b c => (a + b, c - b)) (fun a b c => (a, b + c))
            ([fun _ => (0 : ℚ), fun _ => 0, fun _ => 4] : List (Unit → ℚ))).index ()) 0 := by
  have h := C1_min_error_median_selection (fun a b c => (a + b, c - b))
      (fun a b c => (a, b + c)) ([fun _ => (0 : ℚ), fun _ => 0, fun _ => 4] : List (Unit → ℚ))
      (by decide) () [(4 : ℚ)] [(0 : ℚ)]
      (by norm_num [extrap_rows, dea3pass, slide3])
      (by norm_num [extrap_rows, dea3pass, slide3])
  exact ⟨by decide, h.1, h.2.1⟩

/-- C2: with fewer than 3 raw estimates the extrapolation engine performs no
extrapolation: it returns the unweighted average 0.5 * (first + last) of the
first and the last raw estimate, with an error array (same shape) that is
NaN (none) at every element, and the scalar stage index 0. -/
theorem C2_fallback_average {ι : Type} (deaS deaN : ℚ → ℚ → ℚ → ℚ × ℚ)
    (seq : List (ι → ℚ)) (hne : seq ≠ []) (hlt : seq.length < 3) (e : ι) :
    (extrapolate deaS deaN seq).estimate e
        = (seq.head hne e + seq.getLast hne e) / 2 ∧
    (extrapolate deaS deaN seq).error e = none ∧
    (extrapolate deaS deaN seq).index e = 0 := by
  have h1 : seq.headD (fun _ => 0) = seq.head hne := by
    cases seq with
    | nil => exact absurd rfl hne
    | cons a t => rfl
  have h2 : seq.getLastD (fun _ => 0) = seq.getLast hne := getLastD_eq_getLast _ _ hne
  simp only [extrapolate, if_pos hlt, h1, h2]
  simp

/-- Witness for C2 with exactly two raw estimates. -/
theorem C2_fallback_average_witness :
    ([fun _ => (2 : ℚ), fun _ => 6] : List (Unit → ℚ)).length < 3 ∧
    (extrapolate (fun a b c => (a, b + c)) (fun a _b c => (a, c))
        ([fun _ => (2 : ℚ), fun _ => 6] : List (Unit → ℚ))).estimate () = 4 ∧
    (extrapolate (fun a b c => (a, b + c)) (fun a _b c => (a, c))
        ([fun _ => (2 : ℚ), fun _ => 6] : List (Unit → ℚ))).error () = none ∧
    (extrapolate (fun a b c => (a, b + c)) (fun a _b c => (a, c))
        ([fun _ => (2 : ℚ), fun _ => 6] : List (Unit → ℚ))).index () = 0 := by
  have h := C2_fallback_average (fun a b c => (a, b + c)) (fun a _b c => (a, c))
      ([fun _ => (2 : ℚ), fun _ => 6] : List (Unit → ℚ)) (by simp) (by decide) ()
  refine ⟨by decide, ?_, h.2.1, h.2.2⟩
  rw [h.1]
  show ((2 : ℚ) + 6) / 2 = 4
  norm_num

/-- A dea3 pass treats output elements independently: rows agree at two
elements whenever all input rows agree there. -/
theorem dea3pass_congr {ι : Type} (dea : ℚ → ℚ → ℚ → ℚ × ℚ) (res : List (ι → ℚ))
    (e₁ e₂ : ι) (h : ∀ r ∈ res, r e₁ = r e₂) :
    (∀ r ∈ (dea3pass dea res).1, r e₁ = r e₂) ∧
    (∀ r ∈ (dea3pass dea res).2, r e₁ = r e₂) := by
  constructor
  · intro r hr
    simp only [dea3pass, List.mem_map] at hr
    rcases hr with ⟨t, ht, rfl⟩
    have hm := slide3_mem res t ht
    simp only [h t.1 hm.1, h t.2.1 hm.2.1, h t.2.2 hm.2.2]
  · intro r hr
    simp only [dea3pass, List.mem_map] at hr
    rcases hr with ⟨t, ht, rfl⟩
    have hm := slide3_mem res t ht
    simp only [h t.1 hm.1, h t.2.1 hm.2.1, h t.2.2 hm.2.2]

/-- The extrapolation-stage rows treat output elements independently. -/
theorem extrap_rows_congr {ι : Type} (deaS deaN : ℚ → ℚ → ℚ → ℚ × ℚ)
    (seq : List (ι → ℚ)) (e₁ e₂ : ι) (h : ∀ r ∈ seq, r e₁ = r e₂) :
    (∀ r ∈ (extrap_rows deaS deaN seq).1, r e₁ = r e₂) ∧
    (∀ r ∈ (extrap_rows deaS deaN seq).2, r e₁ = r e₂) := by
  have h1 := dea3pass_congr deaS seq e₁ e₂ h
  unfold extrap_rows
  by_cases hgt : 2 < (dea3pass deaS seq).1.length
  · rw [if_pos hgt]
    exact dea3pass_congr deaN (dea3pass deaS seq).1 e₁ e₂ h1.1
  · rw [if_neg hgt]
    exact h1

/-- The whole extrapolation engine treats output elements independently: if
every raw estimate agrees at two output elements, so do the returned
estimate, error and stage index. -/
theorem extrapolate_congr {ι : Type} (deaS deaN : ℚ → ℚ → ℚ → ℚ × ℚ)
    (seq : List (ι → ℚ)) (e₁ e₂ : ι) (h : ∀ r ∈ seq, r e₁ = r e₂) :
    (extrapolate deaS deaN seq).estimate e₁ = (extrapolate deaS deaN seq).estimate e₂ ∧
    (extrapolate deaS deaN seq).error e₁ = (extrapolate deaS deaN seq).error e₂ ∧
    (extrapolate deaS deaN seq).index e₁ = (extrapolate deaS deaN seq).index e₂ := by
  by_cases hlt : seq.length < 3
  · simp only [extrapolate, if_pos hlt]
    refine ⟨?_, by trivial, by trivial⟩
    cases seq with
    | nil => simp
    | cons a t =>
        have hhead : a e₁ = a e₂ := h a (List.mem_cons_self a t)
        have hlast : (a :: t).getLastD (fun _ => 0) e₁ = (a :: t).getLastD (fun _ => 0) e₂ :=
          h _ (getLastD_mem (a :: t) (fun _ => 0) (by simp))
        simp only [List.headD, hhead, hlast]
  · have hrows := extrap_rows_congr deaS deaN seq e₁ e₂ h
    have hcols : (extrap_rows deaS deaN seq).2.map (fun r => r e₁)
        = (extrap_rows deaS deaN seq).2.map (fun r => r e₂) :=
      List.map_congr_left hrows.2
    have hcolsD : (extrap_rows deaS deaN seq).1.map (fun r => r e₁)
        = (extrap_rows deaS deaN seq).1.map (fun r => r e₂) :=
      List.map_congr_left hrows.1
    have hsel : extrap_sel deaS deaN seq e₁ = extrap_sel deaS deaN seq e₂ := by
      unfold extrap_sel
      rw [hcols]
    simp only [extrapolate, if_neg hlt, hsel, hcols, hcolsD]
    refine ⟨?_, ?_, ?_⟩ <;> trivial

/-- A mirrored upper triangle is exactly symmetric. -/
theorem mirrorUT_symm {n : ℕ} (U : Fin n → Fin n → ℚ) (i j : Fin n) :
    mirrorUT U i j = mirrorUT U j i := by
  unfold mirrorUT
  rcases le_total i j with hij | hji
  · rcases eq_or_lt_of_le hij with rfl | hlt
    · rfl
    · rw [if_pos hij, if_neg (not_le.mpr hlt)]
  · rcases eq_or_lt_of_le hji with rfl | hlt
    · rfl
    · rw [if_neg (not_le.mpr hlt), if_pos hji]

/-- A symmetric per-step stencil gives a symmetric extrapolated estimate. -/
theorem hess_call_symm {n : ℕ} (deaS deaN : ℚ → ℚ → ℚ → ℚ × ℚ)
    (S : (Fin n → ℚ) → Fin n → Fin n → ℚ)
    (hS : ∀ h i j, S h i j = S h j i) (steps : List (Fin n → ℚ)) (i j : Fin n) :
    (derivative_call deaS deaN (fun h p => S h p.1 p.2) steps).estimate (i, j)
      = (derivative_call deaS deaN (fun h p => S h p.1 p.2) steps).estimate (j, i) := by
  refine (extrapolate_congr deaS deaN (derivative_results (fun h p => S h p.1 p.2) steps)
      (i, j) (j, i) ?_).1
  intro r hr
  rcases List.mem_map.mp hr with ⟨h, _, rfl⟩
  exact hS h i j

/-- C3: for every target function, evaluation point, step-sequence
configuration (any list of steps the generators may produce) and method tag
among forward, backward, central, central2 and complex, the extrapolated
Hessian estimate satisfies H[i,j] = H[j,i] exactly for all pairs (i,j) —
the raw stencils are symmetric by upper-triangle mirroring, and the
extrapolation with per-element minimal-error stage selection treats equal
columns identically. -/
theorem C3_hessian_exact_symmetry {n : ℕ} (deaS deaN : ℚ → ℚ → ℚ → ℚ × ℚ)
    (f : (Fin n → ℚ) → ℚ) (fc : (Fin n → CQ) → CQ) (x : Fin n → ℚ)
    (steps : List (Fin n → ℚ)) (i j : Fin n) :
    ((derivative_call deaS deaN (fun h p => Hessian_forward f x h p.1 p.2) steps).estimate (i, j)
      = (derivative_call deaS deaN (fun h p => Hessian_forward f x h p.1 p.2) steps).estimate (j, i)) ∧
    ((derivative_call deaS deaN (fun h p => Hessian_backward f x h p.1 p.2) steps).estimate (i, j)
      = (derivative_call deaS deaN (fun h p => Hessian_backward f x h p.1 p.2) steps).estimate (j, i)) ∧
    ((derivative_call deaS deaN (fun h p => Hessian_central f x h p.1 p.2) steps).estimate (i, j)
      = (derivative_call deaS deaN (fun h p => Hessian_central f x h p.1 p.2) steps).estimate (j, i)) ∧
    ((derivative_call deaS deaN (fun h p => Hessian_central2 f x h p.1 p.2) steps).estimate (i, j)
      = (derivative_call deaS deaN (fun h p => Hessian_central2 f x h p.1 p.2) steps).estimate (j, i)) ∧
    ((derivative_call deaS deaN (fun h p => Hessian_complex fc x h p.1 p.2) steps).estimate (i, j)
      = (derivative_call deaS deaN (fun h p => Hessian_complex fc x h p.1 p.2) steps).estimate (j, i)) := by
  refine ⟨?_, ?_, ?_, ?_, ?_⟩
  · exact hess_call_symm deaS deaN (Hessian_forward f x)
      (fun h a b => mirrorUT_symm _ a b) steps i j
  · refine hess_call_symm deaS deaN (Hessian_backward f x) ?_ steps i j
    intro h a b
    unfold Hessian_backward Hessian_forward
    exact mirrorUT_symm _ a b
  · exact hess_call_symm deaS deaN (Hessian_central f x)
      (fun h a b => mirrorUT_symm _ a b) steps i j
  · exact hess_call_symm deaS deaN (Hessian_central2 f x)
      (fun h a b => mirrorUT_symm _ a b) steps i j
  · exact hess_call_symm deaS deaN (Hessian_complex fc x)
      (fun h a b => mirrorUT_symm _ a b) steps i j

/-- C4 counterexample: for f(v) = (v[1], 0) at x = (0,0) with unit steps,
the code's Gradient result differs from the claim's orientation — the code
puts the partial of output 0 along axis 1 at position [0][1], the claim
demands position [1][0]. -/
theorem C4_counterexample :
    Gradient_forward (fun v o => if o = (0 : Fin 2) then v 1 else 0)
        (fun _ => (0 : ℚ)) (fun _ => 1)
      ≠ Gradient_forward_claim (fun v o => if o = (0 : Fin 2) then v 1 else 0)
        (fun _ => (0 : ℚ)) (fun _ => 1) := by
  intro hEq
  have h01 := congrFun (congrFun hEq 0) 1
  simp only [Gradient_forward, Gradient_forward_claim, grad_parts_fwd, increments] at h01
  norm_num at h01

/-- C4 amended: each coordinate axis i is perturbed independently via the
identity-scaled increment matrix, and the partials array is transposed so
that the LAST axis of the result indexes the input coordinate and the
earlier axes index the output dimensions; a matrix-valued f yields a rank-3
result with all axes reversed. -/
theorem C4_gradient_layout_amended {n m a b : ℕ} (f : (Fin n → ℚ) → Fin m → ℚ)
    (g : (Fin n → ℚ) → Fin a → Fin b → ℚ) (x h : Fin n → ℚ) (o : Fin m) (i : Fin n)
    (u : Fin a) (v : Fin b) :
    Gradient_forward f x h o i
      = (f (fun k => x k + (if i = k then 1 else 0) * h k) o - f x o) / h i ∧
    Gradient_central f x h o i
      = (f (fun k => x k + (if i = k then 1 else 0) * h k) o
         - f (fun k => x k - (if i = k then 1 else 0) * h k) o) / (h i * 2) ∧
    Gradient_forward_mat g x h v u i
      = (g (fun k => x k + (if i = k then 1 else 0) * h k) u v - g x u v) / h i := by
  exact ⟨rfl, rfl, rfl⟩

/-- Exact-normalizing an array elementwise is the identity in exact
arithmetic. -/
theorem emap_make_exact (a : NDArr) : a.emap make_exact = a := by
  cases a with
  | mk s d =>
      simp only [NDArr.emap, NDArr.mk.injEq, true_and]
      have : ∀ q : ℚ, make_exact q = q := make_exact_id
      calc List.map make_exact d = List.map id d := List.map_congr_left (fun q _ => this q)
        _ = d := List.map_id d

/-- C5: when the Base-Step Policy resolves delta with every element nonzero,
step_ratio > 1 and a fixed integer offset, StepsGenerator yields exactly
h_i = delta * step_ratio^(i + offset) for i = num_steps down to 0 (the
zero-magnitude filter omits nothing), so the sequence has num_steps + 1
(hence at most num_steps + 1) elements and strictly decreasing magnitude in
every coordinate. -/
theorem C5_geometric_generator (P L : ℚ → ℚ) (base_step : EpsArg)
    (use_exact : Bool) (num : ℕ) (rr : ℚ) (off : ℤ) (x : NDArr) (scale : ℚ)
    (d : NDArr) (hd : default_base_step P L x scale base_step = .ok d)
    (hnz : ∀ q ∈ d.data, q ≠ 0) (hr : 1 < rr) :
    StepsGenerator_call P L base_step use_exact num rr off x scale
      = .ok (((List.range (num + 1)).reverse).map
              (fun i => d.smul (rr ^ (Int.ofNat i + off)))) ∧
    (gen1_candidates d num rr off).length = num + 1 ∧
    (gen1_candidates d num rr off).length ≤ num + 1 ∧
    (gen1_candidates d num rr off).Chain'
      (fun a b => List.Forall₂ (fun p q => |q| < |p|) a.data b.data) := by
  have hfilter : gen1_steps d num rr off = gen1_candidates d num rr off := by
    unfold gen1_steps yield_nonzero
    apply List.filter_eq_self.mpr
    intro h hmem
    rcases List.mem_map.mp hmem with ⟨i, _, rfl⟩
    rw [List.all_eq_true]
    intro q hq
    simp only [NDArr.smul] at hq
    rcases List.mem_map.mp hq with ⟨q0, hq0, rfl⟩
    have hrpow : (0 : ℚ) < rr ^ (Int.ofNat i + off) := zpow_pos (by linarith) _
    simp only [decide_eq_true_eq]
    exact mul_ne_zero (hnz q0 hq0) (ne_of_gt hrpow)
  have hlen : (gen1_candidates d num rr off).length = num + 1 := by
    unfold gen1_candidates
    rw [List.length_map, List.length_reverse, List.length_range]
  refine ⟨?_, hlen, le_of_eq hlen, ?_⟩
  · unfold StepsGenerator_call
    rw [hd]
    have : gen1_candidates d num rr off
        = ((List.range (num + 1)).reverse).map (fun i => d.smul (rr ^ (Int.ofNat i + off))) := rfl
    cases use_exact <;> simp [Except.map, emap_make_exact, hfilter, this]
  · unfold gen1_candidates
    rw [List.chain'_map (fun i : ℕ => d.smul (rr ^ (Int.ofNat i + off))), List.chain'_reverse]
    have hflip : (flip fun i j =>
        List.Forall₂ (fun p q => |q| < |p|) (d.smul (rr ^ (Int.ofNat i + off))).data
          (d.smul (rr ^ (Int.ofNat j + off))).data)
        = fun i j => List.Forall₂ (fun p q => |q| < |p|)
            (d.smul (rr ^ (Int.ofNat j + off))).data (d.smul (rr ^ (Int.ofNat i + off))).data := rfl
    rw [hflip, List.chain'_range_succ]
    intro m hm
    simp only [NDArr.smul]
    rw [List.forall₂_map_right_iff, List.forall₂_map_left_iff]
    apply List.forall₂_same.mpr
    intro q hq
    have h0 : (0 : ℚ) < rr := by linarith
    have hp1 : (0 : ℚ) < rr ^ (Int.ofNat m + off) := zpow_pos h0 _
    have habs : (0 : ℚ) < |q| := abs_pos.mpr (hnz q hq)
    have hexp : Int.ofNat (m + 1) + off = (Int.ofNat m + off) + 1 := by
      simp only [Int.ofNat_eq_coe]
      push_cast
      ring
    rw [hexp, zpow_add_one₀ (ne_of_gt h0), abs_mul, abs_mul, abs_of_pos hp1,
        abs_of_pos (mul_pos hp1 h0)]
    exact mul_lt_mul_of_pos_left ((lt_mul_iff_one_lt_right hp1).mpr hr) habs

/-- Witness for C5: scalar base step 1 on a one-point array, ratio 2,
offset -1, num_steps 2. -/
theorem C5_geometric_generator_witness :
    default_base_step id id { shape := [1], data := [3] } 2 (.scalar 1)
      = .ok { shape := [1], data := [(1 : ℚ)] } ∧
    (1 : ℚ) < 2 ∧
    StepsGenerator_call id id (.scalar 1) false 2 2 (-1) { shape := [1], data := [3] } 2
      = .ok (((List.range 3).reverse).map
          (fun i => NDArr.smul { shape := [1], data := [(1 : ℚ)] } ((2 : ℚ) ^ (Int.ofNat i + (-1 : ℤ))))) ∧
    (gen1_candidates { shape := [1], data := [(1 : ℚ)] } 2 2 (-1)).length = 3 := by
  have h := C5_geometric_generator id id (.scalar 1) false 2 2 (-1)
      { shape := [1], data := [3] } 2 { shape := [1], data := [(1 : ℚ)] }
      rfl (by decide) (by decide)
  exact ⟨rfl, by decide, h.1, h.2.1⟩

/-- C6: no yielded step has a zero coordinate, and for both generators a
degenerate candidate (exactly zero in some coordinate) means nothing more is
ever yielded: the full output equals the output of the candidates truncated
before the degenerate one (for the geometric generator under ratio > 1, for
the log-spaced generator under positive multipliers). -/
theorem C6_no_degenerate_steps :
    (∀ (cands : List NDArr), ∀ h ∈ yield_nonzero cands, ∀ q ∈ h.data, q ≠ 0) ∧
    (∀ (d : NDArr) (num : ℕ) (rr : ℚ) (off : ℤ) (p : ℕ), 1 < rr →
      p < (gen1_candidates d num rr off).length →
      degenerate ((gen1_candidates d num rr off).getD p { shape := [], data := [] }) →
      gen1_steps d num rr off
        = yield_nonzero ((gen1_candidates d num rr off).take p)) ∧
    (∀ (d : NDArr) (mults : List ℚ) (p : ℕ), (∀ m ∈ mults, 0 < m) →
      p < (gen2_candidates d mults).length →
      degenerate ((gen2_candidates d mults).getD p { shape := [], data := [] }) →
      gen2_steps d mults = yield_nonzero ((gen2_candidates d mults).take p)) := by
  have habort : ∀ (cands : List NDArr) (p : ℕ),
      (∀ c ∈ cands, ∃ q0 ∈ c.data, q0 = 0) →
      yield_nonzero cands = yield_nonzero (cands.take p) := by
    intro cands p hall
    have hnil : ∀ c ∈ cands, ¬(c.data.all (fun q => decide (q ≠ 0)) = true) := by
      intro c hc hcontra
      rcases hall c hc with ⟨q0, hq0, rfl⟩
      have := List.all_eq_true.mp hcontra _ hq0
      simp at this
    unfold yield_nonzero
    rw [List.filter_eq_nil_iff.mpr hnil,
        List.filter_eq_nil_iff.mpr (fun c hc => hnil c (List.take_subset _ _ hc))]
  refine ⟨?_, ?_, ?_⟩
  · intro cands h hmem q hq
    have hp := List.of_mem_filter hmem
    have := List.all_eq_true.mp hp q hq
    exact of_decide_eq_true this
  · intro d num rr off p hr hp hdeg
    have hc : (gen1_candidates d num rr off).getD p { shape := [], data := [] }
        ∈ gen1_candidates d num rr off := getD_mem _ _ p hp
    rcases List.mem_map.mp hc with ⟨i, _, hceq⟩
    rcases hdeg with ⟨q, hq, hq0⟩
    rw [← hceq] at hq
    simp only [NDArr.smul] at hq
    rcases List.mem_map.mp hq with ⟨q0, hq0mem, hq0eq⟩
    have hrpow : rr ^ (Int.ofNat i + off) ≠ 0 :=
      ne_of_gt (zpow_pos (by linarith) _)
    have hq00 : q0 = 0 := by
      rcases mul_eq_zero.mp (hq0eq.trans hq0) with h' | h'
      · exact h'
      · exact absurd h' hrpow
    apply habort
    intro c hcm
    rcases List.mem_map.mp hcm with ⟨j, _, hjeq⟩
    refine ⟨q0 * rr ^ (Int.ofNat j + off), ?_, by rw [hq00]; ring⟩
    rw [← hjeq]
    simp only [NDArr.smul]
    exact List.mem_map_of_mem _ hq0mem
  · intro d mults p hpos hp hdeg
    have hc : (gen2_candidates d mults).getD p { shape := [], data := [] }
        ∈ gen2_candidates d mults := getD_mem _ _ p hp
    rcases List.mem_map.mp hc with ⟨m, hmmem, hceq⟩
    rcases hdeg with ⟨q, hq, hq0⟩
    rw [← hceq, emap_make_exact] at hq
    simp only [NDArr.smul] at hq
    rcases List.mem_map.mp hq with ⟨q0, hq0mem, hq0eq⟩
    have hq00 : q0 = 0 := by
      rcases mul_eq_zero.mp (hq0eq.trans hq0) with h' | h'
      · exact h'
      · exact absurd h' (ne_of_gt (hpos m hmmem))
    apply habort
    intro c hcm
    rcases List.mem_map.mp hcm with ⟨m', hm'mem, hm'eq⟩
    refine ⟨q0 * m', ?_, by rw [hq00]; ring⟩
    rw [← hm'eq, emap_make_exact]
    simp only [NDArr.smul]
    exact List.mem_map_of_mem _ hq0mem

/-- Witness for C6: a nonzero singleton survives the filter with nonzero
coordinates, and a zero delta makes both generators abort at once. -/
theorem C6_no_degenerate_steps_witness :
    (∀ q ∈ ({ shape := [1], data := [(5 : ℚ)] } : NDArr).data, q ≠ 0) ∧
    gen1_steps { shape := [1], data := [0] } 1 2 (-1)
      = yield_nonzero ((gen1_candidates { shape := [1], data := [0] } 1 2 (-1)).take 0) ∧
    gen2_steps { shape := [1], data := [0] } [1]
      = yield_nonzero ((gen2_candidates { shape := [1], data := [0] } [1]).take 0) := by
  refine ⟨?_, ?_, ?_⟩
  · exact C6_no_degenerate_steps.1 [{ shape := [1], data := [(5 : ℚ)] }]
      { shape := [1], data := [(5 : ℚ)] } (by decide)
  · refine C6_no_degenerate_steps.2.1 { shape := [1], data := [0] } 1 2 (-1) 0
      (by decide) ?_ ?_
    · simp [gen1_candidates]
    · refine ⟨(0 : ℚ) * (2 : ℚ) ^ (Int.ofNat 2 + (-1 : ℤ)), ?_, by ring⟩
      simp [gen1_candidates, NDArr.smul, List.range_succ]
  · refine C6_no_degenerate_steps.2.2 { shape := [1], data := [0] } [1] 0
      (by norm_num) ?_ ?_
    · simp [gen2_candidates]
    · refine ⟨(0 : ℚ) * 1, ?_, by ring⟩
      simp [gen2_candidates, NDArr.smul, NDArr.emap, make_exact]

/-- C9 counterexample: with the default scale 1.5 and num_steps 10, the
multiplier with exponent 0 — the value exactly 1 — is produced, but the
claim requires every multiplier to lie between step_min and step_max, i.e.
(in the order-reversing exponent representation) to have its exponent
between step_max_exp = 1/3 and step_min_exp = 2/3; exponent 0 lies strictly
outside, so that multiplier equals 1 while step_max = (10*EPS)^(1/3) < 1. -/
theorem C9_counterexample :
    (0 : ℚ) ∈ logspace_mult_exp (3 / 2) 10 ∧
    ¬(step_max_exp (3 / 2) ≤ (0 : ℚ) ∧ (0 : ℚ) ≤ step_min_exp (3 / 2)) := by
  constructor
  · unfold logspace_mult_exp
    rw [List.mem_reverse]
    have h0 : (0 : ℚ)
        = ((0 : ℕ) : ℚ) / (((10 : ℕ) : ℚ) - 1) * (step_max_exp (3 / 2) - step_min_exp (3 / 2)) := by
      norm_num
    rw [h0]
    exact List.mem_map_of_mem _ (by decide)
  · intro hcontra
    have h1 := hcontra.1
    rw [step_max_exp] at h1
    norm_num at h1

/-- C9 amended: with step_min and step_max unset, their defaults have
exponents step_min_exp = 1/scale and step_max_exp = 1/(scale+1.5) as powers
of 10*EPS, and the generator builds num_steps equally log-spaced multipliers
between 1 (exponent 0, the last one) and step_max/step_min (exponent
step_max_exp - step_min_exp, the first one) — not between step_min and
step_max — ordered largest first, and yields the num_steps exact-normalized
steps delta * multiplier.  P is the power map of 10*EPS restricted to the
produced exponents (order-reversing and positive). -/
theorem C9_logspaced_generator_amended (P : ℚ → ℚ) (scale : ℚ) (num : ℕ)
    (d : NDArr) (hs : 0 < scale) (hn : 2 ≤ num)
    (hPanti : ∀ s ∈ logspace_mult_exp scale num, ∀ t ∈ logspace_mult_exp scale num,
      s < t → P t < P s)
    (hPpos : ∀ t ∈ logspace_mult_exp scale num, 0 < P t)
    (hd : ∀ q ∈ d.data, q ≠ 0) :
    (logspace_mult_exp scale num).length = num ∧
    (logspace_mult_exp scale num).headD 1 = step_max_exp scale - step_min_exp scale ∧
    (logspace_mult_exp scale num).getLastD 1 = 0 ∧
    (logspace_mult_exp scale num).Chain'
      (fun s t => t - s = (step_min_exp scale - step_max_exp scale) / ((num : ℚ) - 1)) ∧
    ((logspace_mult_exp scale num).map P).Chain' (fun a b => b < a) ∧
    gen2_steps d ((logspace_mult_exp scale num).map P)
      = ((logspace_mult_exp scale num).map P).map (fun m => d.smul m) ∧
    (gen2_steps d ((logspace_mult_exp scale num).map P)).length = num := by
  have hw : (0 : ℚ) < (num : ℚ) - 1 := by
    have : (2 : ℚ) ≤ (num : ℚ) := by exact_mod_cast hn
    linarith
  have hw0 : ((num : ℚ) - 1) ≠ 0 := ne_of_gt hw
  have hmaxmin : step_max_exp scale < step_min_exp scale := by
    unfold step_max_exp step_min_exp
    rw [div_lt_div_iff₀ (by linarith) hs]
    linarith
  have hgap : (0 : ℚ) < (step_min_exp scale - step_max_exp scale) / ((num : ℚ) - 1) :=
    div_pos (by linarith) hw
  obtain ⟨m, rfl⟩ : ∃ m, num = m + 2 := ⟨num - 2, by omega⟩
  have hlen : (logspace_mult_exp scale (m + 2)).length = m + 2 := by
    unfold logspace_mult_exp
    rw [List.length_reverse, List.length_map, List.length_range]
  have hhead : (logspace_mult_exp scale (m + 2)).headD 1
      = step_max_exp scale - step_min_exp scale := by
    unfold logspace_mult_exp
    rw [List.range_succ (m + 1), List.map_append, List.reverse_append]
    simp only [List.map_cons, List.map_nil, List.reverse_cons, List.reverse_nil,
      List.nil_append, List.cons_append, List.headD]
    have hq : ((m + 1 : ℕ) : ℚ) / (((m + 2 : ℕ) : ℚ) - 1) = 1 := by
      push_cast
      rw [div_eq_one_iff_eq (by
        intro hcontra
        have hmn : (0 : ℚ) ≤ (m : ℚ) := Nat.cast_nonneg m
        linarith)]
      ring
    rw [hq, one_mul]
  have hlast : (logspace_mult_exp scale (m + 2)).getLastD 1 = 0 := by
    unfold logspace_mult_exp
    rw [List.getLastD_eq_getLast?, List.getLast?_reverse, List.range_succ_eq_map,
        List.map_cons, List.head?_cons]
    simp
  have hchain : (logspace_mult_exp scale (m + 2)).Chain'
      (fun s t => t - s = (step_min_exp scale - step_max_exp scale) / (((m + 2 : ℕ) : ℚ) - 1)) := by
    unfold logspace_mult_exp
    rw [List.chain'_reverse,
        List.chain'_map (fun k : ℕ =>
          ((k : ℚ) / (((m + 2 : ℕ) : ℚ) - 1)) * (step_max_exp scale - step_min_exp scale)),
        List.chain'_range_succ]
    intro k hk
    show ((k : ℚ) / (((m + 2 : ℕ) : ℚ) - 1)) * (step_max_exp scale - step_min_exp scale)
        - ((((k + 1 : ℕ)) : ℚ) / (((m + 2 : ℕ) : ℚ) - 1)) * (step_max_exp scale - step_min_exp scale)
        = (step_min_exp scale - step_max_exp scale) / (((m + 2 : ℕ) : ℚ) - 1)
    have hww : (((m + 2 : ℕ) : ℚ) - 1) ≠ 0 := by push_cast at hw0 ⊢; exact hw0
    field_simp
    ring
  refine ⟨hlen, hhead, hlast, hchain, ?_, ?_, ?_⟩
  · rw [List.chain'_map P, List.chain'_iff_get]
    intro i hi
    have hsp := List.chain'_iff_get.mp hchain i hi
    have hlt : (logspace_mult_exp scale (m + 2)).get ⟨i, by omega⟩
        < (logspace_mult_exp scale (m + 2)).get ⟨i + 1, by omega⟩ := by
      have hgap2 := hgap
      push_cast at hsp hgap2 ⊢
      linarith [hsp, hgap2]
    exact hPanti _ (List.get_mem _ _ _) _ (List.get_mem _ _ _) hlt
  · unfold gen2_steps yield_nonzero gen2_candidates
    have hcand : ((logspace_mult_exp scale (m + 2)).map P).map
          (fun mu => (d.smul mu).emap make_exact)
        = ((logspace_mult_exp scale (m + 2)).map P).map (fun mu => d.smul mu) :=
      List.map_congr_left (fun mu _ => emap_make_exact _)
    rw [hcand]
    apply List.filter_eq_self.mpr
    intro h hmem
    rcases List.mem_map.mp hmem with ⟨mu, hmm, rfl⟩
    rw [List.all_eq_true]
    intro q hq
    simp only [NDArr.smul] at hq
    rcases List.mem_map.mp hq with ⟨q0, hq0, rfl⟩
    rcases List.mem_map.mp hmm with ⟨t, htm, rfl⟩
    simp only [decide_eq_true_eq]
    exact mul_ne_zero (hd q0 hq0) (ne_of_gt (hPpos t htm))
  · unfold gen2_steps yield_nonzero gen2_candidates
    have hcand : ((logspace_mult_exp scale (m + 2)).map P).map
          (fun mu => (d.smul mu).emap make_exact)
        = ((logspace_mult_exp scale (m + 2)).map P).map (fun mu => d.smul mu) :=
      List.map_congr_left (fun mu _ => emap_make_exact _)
    rw [hcand]
    have hkeep : ∀ h ∈ ((logspace_mult_exp scale (m + 2)).map P).map (fun mu => d.smul mu),
        (h.data.all (fun q => decide (q ≠ 0))) = true := by
      intro h hmem
      rcases List.mem_map.mp hmem with ⟨mu, hmm, rfl⟩
      rw [List.all_eq_true]
      intro q hq
      simp only [NDArr.smul] at hq
      rcases List.mem_map.mp hq with ⟨q0, hq0, rfl⟩
      rcases List.mem_map.mp hmm with ⟨t, htm, rfl⟩
      simp only [decide_eq_true_eq]
      exact mul_ne_zero (hd q0 hq0) (ne_of_gt (hPpos t htm))
    rw [List.filter_eq_self.mpr hkeep]
    rw [List.length_map, List.length_map, hlen]

/-- Witness for C9 amended, at scale 3/2, two steps, P t = 1 - t (a
positive, order-reversing stand-in on the produced exponents) and a nonzero
one-element delta. -/
theorem C9_logspaced_generator_amended_witness :
    (0 : ℚ) < 3 / 2 ∧
    (logspace_mult_exp (3 / 2) 2).length = 2 ∧
    (logspace_mult_exp (3 / 2) 2).getLastD 1 = 0 ∧
    gen2_steps { shape := [1], data := [(1 : ℚ)] }
        ((logspace_mult_exp (3 / 2) 2).map (fun t => 1 - t))
      = ((logspace_mult_exp (3 / 2) 2).map (fun t => 1 - t)).map
          (fun mu => NDArr.smul { shape := [1], data := [(1 : ℚ)] } mu) ∧
    (gen2_steps { shape := [1], data := [(1 : ℚ)] }
        ((logspace_mult_exp (3 / 2) 2).map (fun t => 1 - t))).length = 2 := by
  have hpos : ∀ t ∈ logspace_mult_exp (3 / 2) 2, (0 : ℚ) < 1 - t := by
    intro t ht
    simp only [logspace_mult_exp, step_min_exp, step_max_exp, List.mem_reverse,
      List.mem_map, List.mem_range] at ht
    rcases ht with ⟨k, hk, rfl⟩
    interval_cases k <;> norm_num
  have h := C9_logspaced_generator_amended (fun t => 1 - t) (3 / 2) 2
      { shape := [1], data := [(1 : ℚ)] } (by norm_num) (by norm_num)
      (fun s _ t _ hst => by show 1 - t < 1 - s; linarith) hpos (by decide)
  exact ⟨by norm_num, h.1, h.2.2.1, h.2.2.2.2.2.1, h.2.2.2.2.2.2⟩

/-- C7: the Base-Step Policy fails exactly when the supplied epsilon is a
non-scalar array whose shape differs from x's shape; with epsilon None it
returns (10*EPS)^(1/scale) * max(log1p(|x|), 0.1) elementwise (P and L
standing for the transcendental kernels t to (10*EPS)^t and log1p), and a
scalar epsilon is broadcast to x's shape. -/
theorem C7_base_step_policy (P L : ℚ → ℚ) (x : NDArr) (scale : ℚ) (e : EpsArg) :
    (exceptOk (default_base_step P L x scale e) = false
      ↔ ∃ a, e = .array a ∧ a.shape ≠ x.shape) ∧
    (e = .none →
      default_base_step P L x scale e
        = .ok { shape := x.shape,
                data := x.data.map (fun xi => P (1 / scale) * max (L |xi|) (1 / 10)) }) ∧
    (∀ c, e = .scalar c →
      default_base_step P L x scale e
        = .ok { shape := x.shape, data := x.data.map (fun _ => c) }) := by
  refine ⟨?_, ?_, ?_⟩
  · cases e with
    | none => simp [default_base_step, exceptOk]
    | scalar c => simp [default_base_step, exceptOk]
    | array a =>
        by_cases hsh : a.shape = x.shape
        · simp [default_base_step, exceptOk, hsh]
        · simp [default_base_step, exceptOk, hsh]
  · rintro rfl
    rfl
  · rintro c rfl
    rfl

/-- Witness for C7: a 3-element step array against a 2-element point fails,
and a scalar override broadcasts. -/
theorem C7_base_step_policy_witness :
    exceptOk (default_base_step id id { shape := [2], data := [1, 2] } 2
        (.array { shape := [3], data := [0, 0, 0] })) = false ∧
    default_base_step id id { shape := [2], data := [1, 2] } 2 (.scalar 5)
      = .ok { shape := [2], data := [5, 5] } := by
  constructor
  · exact (C7_base_step_policy id id { shape := [2], data := [1, 2] } 2
      (.array { shape := [3], data := [0, 0, 0] })).1.mpr ⟨_, rfl, by decide⟩
  · have h := (C7_base_step_policy id id { shape := [2], data := [1, 2] } 2
      (.scalar 5)).2.2 5 rfl
    rw [h]
    rfl

/-- The guard behavior of central_diff_weights: success iff Np is at least
ndiv + 1 and odd. -/
theorem central_diff_weights_ok (Np ndiv : ℕ) :
    exceptOk (central_diff_weights Np ndiv) = true ↔ (ndiv + 1 ≤ Np ∧ Np % 2 = 1) := by
  unfold central_diff_weights
  by_cases h1 : Np < ndiv + 1
  · rw [if_pos h1]
    simp only [exceptOk, Bool.false_eq_true, false_iff]
    omega
  · rw [if_neg h1]
    by_cases h2 : Np % 2 = 0
    · rw [if_pos h2]
      simp only [exceptOk, Bool.false_eq_true, false_iff]
      omega
    · rw [if_neg h2]
      exact iff_of_true rfl ⟨by omega, by omega⟩

/-- The guard behavior of NDerivative._weights: success iff order is at
least n + 1 and odd (every branch past the guards succeeds). -/
theorem NDerivative_weights_ok (n order : ℕ) :
    exceptOk (NDerivative_weights n order) = true
      ↔ (n + 1 ≤ order ∧ order % 2 = 1) := by
  unfold NDerivative_weights
  by_cases h1 : order < n + 1
  · rw [if_pos h1]
    simp only [exceptOk, Bool.false_eq_true, false_iff]
    omega
  · rw [if_neg h1]
    by_cases h2 : order % 2 = 0
    · rw [if_pos h2]
      simp only [exceptOk, Bool.false_eq_true, false_iff]
      omega
    · rw [if_neg h2]
      refine iff_of_true ?_ ⟨by omega, by omega⟩
      split_ifs
      all_goals first
        | rfl
        | exact (central_diff_weights_ok _ _).mpr ⟨by omega, by omega⟩

/-- C8: construction of the generic n-th derivative stencil fails if and
only if the requested order (number of stencil points) is even or smaller
than n + 1; the failure happens at weight-construction (__init__) time, and
since the stored f has an arbitrary type α the construction provably cannot
evaluate the target function. -/
theorem C8_invalid_stencil {α : Type} (f : α) (n order : ℕ) :
    exceptOk (NDerivative_init f n order) = true
      ↔ (n + 1 ≤ order ∧ order % 2 = 1) := by
  have hmap : ∀ (e : Except String (List ℚ)),
      exceptOk (e.map (fun w =>
        ({ f := f, n := n, order := order, weights := w } : NDerivativeState α)))
        = exceptOk e := by
    intro e
    cases e <;> rfl
  unfold NDerivative_init
  rw [hmap]
  exact NDerivative_weights_ok n order

/-- C10: with a non-callable steps configuration the call produces exactly
one raw stencil estimate, at the Base-Step-Policy-resolved step, and the
returned derivative equals that raw estimate unchanged (0.5*(r+r) = r),
with an all-NaN error and stage index 0 under full output. -/
theorem C10_noncallable_steps_single_estimate {ι : Type} (P L : ℚ → ℚ)
    (deaS deaN : ℚ → ℚ → ℚ → ℚ × ℚ) (stencil : NDArr → ι → ℚ) (steps : EpsArg)
    (x : NDArr) (scale : ℚ) (h0 : NDArr)
    (hres : default_base_step P L x scale steps = .ok h0) :
    ∃ r, derivative_call_value P L deaS deaN stencil steps x scale = .ok r ∧
      (∀ e, r.estimate e = stencil h0 e) ∧
      (∀ e, r.error e = none) ∧
      (∀ e, r.index e = 0) := by
  refine ⟨extrapolate deaS deaN (derivative_results stencil [h0]), ?_, ?_, ?_, ?_⟩
  · unfold derivative_call_value make_callable_value
    rw [hres]
    rfl
  · intro e
    show (extrapolate deaS deaN [stencil h0]).estimate e = stencil h0 e
    simp only [extrapolate,
      if_pos (show ([stencil h0] : List (ι → ℚ)).length < 3 by simp)]
    show (stencil h0 e + stencil h0 e) / 2 = stencil h0 e
    ring
  · intro e
    show (extrapolate deaS deaN [stencil h0]).error e = none
    simp only [extrapolate,
      if_pos (show ([stencil h0] : List (ι → ℚ)).length < 3 by simp)]
  · intro e
    show (extrapolate deaS deaN [stencil h0]).index e = 0
    simp only [extrapolate,
      if_pos (show ([stencil h0] : List (ι → ℚ)).length < 3 by simp)]

/-- Witness for C10: a scalar steps value 5 on a one-point array; the call
returns the single raw estimate with NaN error and index 0. -/
theorem C10_noncallable_steps_single_estimate_witness :
    default_base_step id id { shape := [1], data := [2] } 2 (.scalar 5)
      = .ok { shape := [1], data := [(5 : ℚ)] } ∧
    ∃ r, derivative_call_value id id (fun a b c => (a, b + c)) (fun a _b c => (a, c))
        (fun h _ => h.data.headD 0) (.scalar 5) { shape := [1], data := [2] } 2
      = .ok r ∧ r.estimate () = 5 ∧ r.error () = none ∧ r.index () = 0 := by
  have h := C10_noncallable_steps_single_estimate (ι := Unit) id id
      (fun a b c => (a, b + c)) (fun a _b c => (a, c)) (fun h _ => h.data.headD 0)
      (.scalar 5) { shape := [1], data := [2] } 2 { shape := [1], data := [(5 : ℚ)] } rfl
  rcases h with ⟨r, hr, he, herr, hidx⟩
  refine ⟨rfl, r, hr, ?_, herr (), hidx ()⟩
  rw [he ()]
  rfl
